import Mathlib

set_option maxRecDepth 100000
set_option maxHeartbeats 1000000

/-!
Verification of the KrutiDev-to-Unicode transcoding engine
(`krutidev_to_unicode` in `unicode.py`).

The engine is modelled over `List Char`.  Python's `str.replace` is
modelled by `pyReplace` (left-to-right, non-overlapping, all
occurrences).  The three regex-driven fixpoint loops (`f(.?)`,
`fa(.?)`, `ि्(.?)`) and the reph-resolution loop (`(.?)Z`) are
modelled by structurally recursive functions driven by a fuel value
that is a proven upper bound on the number of iterations (the count of
the respective marker, or the number of `ि`/`्` inversions), so the
fuelled functions compute exactly the fixpoints the Python `while`
loops reach.  Regex `.` never matches a newline; the search functions
reproduce that.
-/

/-- `begMatch pat s` is true when `pat` is an initial segment of `s`
(Python `s.startswith(pat)`). -/
def begMatch : List Char → List Char → Bool
  | [], _ => true
  | _ :: _, [] => false
  | p :: ps, c :: cs => if p = c then begMatch ps cs else false

/-- Index of the first occurrence of `pat` in `s` (Python `s.find(pat)`,
`none` when absent). -/
def findSub (pat : List Char) : List Char → Option Nat
  | [] => if pat.isEmpty then some 0 else none
  | c :: rest =>
      if begMatch pat (c :: rest) then some 0
      else (findSub pat rest).map (· + 1)

/-- Number of occurrences of the character `c` in `s`. -/
def cnt (c : Char) : List Char → Nat
  | [] => 0
  | d :: rest => (if d = c then 1 else 0) + cnt c rest

/-- Fuelled form of Python `str.replace`: replace every non-overlapping
occurrence of `pat` by `rep`, scanning left to right and continuing
after each replacement.  The fuel only needs to cover the length of
`s`. -/
def pyRep (pat rep : List Char) : Nat → List Char → List Char
  | 0, s => s
  | _ + 1, [] => []
  | fuel + 1, c :: rest =>
      if begMatch pat (c :: rest) && !pat.isEmpty then
        rep ++ pyRep pat rep fuel (List.drop (pat.length - 1) rest)
      else
        c :: pyRep pat rep fuel rest

/-- Python `s.replace(pat, rep)` (no rule of the engine has an empty
pattern, matching the `!pat.isEmpty` guard). -/
def pyReplace (pat rep s : List Char) : List Char := pyRep pat rep s.length s

/-!
The rule table and character classes, transcribed in order from
unicode.py.
-/

def k2u_mappings : List (List Char × List Char) := [
  (['\u00f1'], ['\u0970']),
  (['Q', '+', 'Z'], ['Q', 'Z', '+']),
  (['s', 'a', 's'], ['s', 'a']),
  (['a', 'a'], ['a']),
  ([')', 'Z'], ['\u0930', '\u094d', '\u0926', '\u094d', '\u0927']),
  (['Z', 'Z'], ['Z']),
  (['\u2018'], ['\x22']),
  (['\u2019'], ['\x22']),
  (['\u201c'], ['\x27']),
  (['\u201d'], ['\x27']),
  (['\u00e5'], ['\u0966']),
  (['\u0192'], ['\u0967']),
  (['\u201e'], ['\u0968']),
  (['\u2026'], ['\u0969']),
  (['\u2020'], ['\u096a']),
  (['\u2021'], ['\u096b']),
  (['\u02c6'], ['\u096c']),
  (['\u2030'], ['\u096d']),
  (['\u0160'], ['\u096e']),
  (['\u2039'], ['\u096f']),
  (['\u00b6', '+'], ['\u095e', '\u094d']),
  (['d', '+'], ['\u0958']),
  (['[', '+', 'k'], ['\u0959']),
  (['[', '+'], ['\u0959', '\u094d']),
  (['x', '+'], ['\u095a']),
  (['T', '+'], ['\u091c', '\u093c', '\u094d']),
  (['t', '+'], ['\u095b']),
  (['M', '+'], ['\u095c']),
  (['<', '+'], ['\u095d']),
  (['Q', '+'], ['\u095e']),
  ([';', '+'], ['\u095f']),
  (['j', '+'], ['\u0931']),
  (['u', '+'], ['\u0929']),
  (['\u00d9', 'k'], ['\u0924', '\u094d', '\u0924']),
  (['\u00d9'], ['\u0924', '\u094d', '\u0924', '\u094d']),
  (['\u00e4'], ['\u0915', '\u094d', '\u0924']),
  (['\u2013'], ['\u0926', '\u0943']),
  (['\u2014'], ['\u0915', '\u0943']),
  (['\u00e9'], ['\u0928', '\u094d', '\u0928']),
  (['\u2122'], ['\u0928', '\u094d', '\u0928', '\u094d']),
  (['=', 'k', 'k'], ['=', 'k']),
  (['f', '=', 'k'], ['f', '=']),
  (['\u00e0'], ['\u0939', '\u094d', '\u0928']),
  (['\u00e1'], ['\u0939', '\u094d', '\u092f']),
  (['\u00e2'], ['\u0939', '\u0943']),
  (['\u00e3'], ['\u0939', '\u094d', '\u092e']),
  (['\u00ba', 'z'], ['\u0939', '\u094d', '\u0930']),
  (['\u00ba'], ['\u0939', '\u094d']),
  (['\u00ed'], ['\u0926', '\u094d', '\u0926']),
  (['{', 'k'], ['\u0915', '\u094d', '\u0937']),
  (['{'], ['\u0915', '\u094d', '\u0937', '\u094d']),
  (['='], ['\u0924', '\u094d', '\u0930']),
  (['\u00ab'], ['\u0924', '\u094d', '\u0930', '\u094d']),
  (['N', '\u00ee'], ['\u091b', '\u094d', '\u092f']),
  (['V', '\u00ee'], ['\u091f', '\u094d', '\u092f']),
  (['B', '\u00ee'], ['\u0920', '\u094d', '\u092f']),
  (['M', '\u00ee'], ['\u0921', '\u094d', '\u092f']),
  (['<', '\u00ee'], ['\u0922', '\u094d', '\u092f']),
  (['|'], ['\u0926', '\u094d', '\u092f']),
  (['K'], ['\u091c', '\u094d', '\u091e']),
  (['}'], ['\u0926', '\u094d', '\u0935']),
  (['J'], ['\u0936', '\u094d', '\u0930']),
  (['V', '\u00aa'], ['\u091f', '\u094d', '\u0930']),
  (['M', '\u00aa'], ['\u0921', '\u094d', '\u0930']),
  (['<', '\u00aa', '\u00aa'], ['\u0922', '\u094d', '\u0930']),
  (['N', '\u00aa'], ['\u091b', '\u094d', '\u0930']),
  (['\u00d8'], ['\u0915', '\u094d', '\u0930']),
  (['\u00dd'], ['\u092b', '\u094d', '\u0930']),
  (['n', 'z', 'Z'], ['\u0930', '\u094d', '\u0926', '\u094d', '\u0930']),
  (['\u00e6'], ['\u0926', '\u094d', '\u0930']),
  (['\u00e7'], ['\u092a', '\u094d', '\u0930']),
  (['\u00c1'], ['\u092a', '\u094d', '\u0930']),
  (['x', 'z'], ['\u0917', '\u094d', '\u0930']),
  (['#'], ['\u0930', '\u0941']),
  ([':'], ['\u0930', '\u0942']),
  (['v', '\u201a'], ['\u0911']),
  (['v', 'k', 's'], ['\u0913']),
  (['v', 'k', 'S'], ['\u0914']),
  (['v', 'k'], ['\u0906']),
  (['v'], ['\u0905']),
  (['b', '\u00b1'], ['\u0908', '\u0902']),
  (['\u00c3'], ['\u0908']),
  (['b', 'Z'], ['\u0908']),
  (['b'], ['\u0907']),
  (['m'], ['\u0909']),
  (['\u00c5'], ['\u090a']),
  ([',', 's'], ['\u0910']),
  ([','], ['\u090f']),
  (['_'], ['\u090b']),
  (['\u00f4'], ['\u0915', '\u094d', '\u0915']),
  (['d'], ['\u0915']),
  (['D', 'k'], ['\u0915']),
  (['D'], ['\u0915', '\u094d']),
  (['[', 'k'], ['\u0916']),
  (['['], ['\u0916', '\u094d']),
  (['x'], ['\u0917']),
  (['X', 'k'], ['\u0917']),
  (['X'], ['\u0917', '\u094d']),
  (['\u00c4'], ['\u0918']),
  (['?', 'k'], ['\u0918']),
  (['?'], ['\u0918', '\u094d']),
  (['\u00b3'], ['\u0919']),
  (['p', 'k', 'S'], ['\u091a', '\u0948']),
  (['p'], ['\u091a']),
  (['P', 'k'], ['\u091a']),
  (['P'], ['\u091a', '\u094d']),
  (['N'], ['\u091b']),
  (['t'], ['\u091c']),
  (['T', 'k'], ['\u091c']),
  (['T'], ['\u091c', '\u094d']),
  (['>'], ['\u091d']),
  (['\u00f7'], ['\u091d', '\u094d']),
  (['\u00a5'], ['\u091e']),
  (['\u00ea'], ['\u091f', '\u094d', '\u091f']),
  (['\u00eb'], ['\u091f', '\u094d', '\u0920']),
  (['V'], ['\u091f']),
  (['B'], ['\u0920']),
  (['\u00ec'], ['\u0921', '\u094d', '\u0921']),
  (['\u00ef'], ['\u0921', '\u094d', '\u0922']),
  (['M'], ['\u0921']),
  (['<'], ['\u0922']),
  (['.', 'k'], ['\u0923']),
  (['.'], ['\u0923', '\u094d']),
  (['r'], ['\u0924']),
  (['R', 'k'], ['\u0924']),
  (['R'], ['\u0924', '\u094d']),
  (['F', 'k'], ['\u0925']),
  (['F'], ['\u0925', '\u094d']),
  ([')'], ['\u0926', '\u094d', '\u0927']),
  (['n'], ['\u0926']),
  (['/', 'k'], ['\u0927']),
  (['/'], ['\u0927', '\u094d']),
  (['\u00cb'], ['\u0927', '\u094d']),
  (['\u00e8'], ['\u0927']),
  (['u'], ['\u0928']),
  (['U', 'k'], ['\u0928']),
  (['U'], ['\u0928', '\u094d']),
  (['i'], ['\u092a']),
  (['I', 'k'], ['\u092a']),
  (['I'], ['\u092a', '\u094d']),
  (['Q'], ['\u092b']),
  (['\u00b6'], ['\u092b', '\u094d']),
  (['c'], ['\u092c']),
  (['C', 'k'], ['\u092c']),
  (['C'], ['\u092c', '\u094d']),
  (['H', 'k'], ['\u092d']),
  (['H'], ['\u092d', '\u094d']),
  (['e'], ['\u092e']),
  (['E', 'k'], ['\u092e']),
  (['E'], ['\u092e', '\u094d']),
  ([';'], ['\u092f']),
  (['\u00b8'], ['\u092f', '\u094d']),
  (['j'], ['\u0930']),
  (['y'], ['\u0932']),
  (['Y', 'k'], ['\u0932']),
  (['Y'], ['\u0932', '\u094d']),
  (['G'], ['\u0933']),
  (['o'], ['\u0935']),
  (['O', 'k'], ['\u0935']),
  (['O'], ['\u0935', '\u094d']),
  (['\x27', 'k'], ['\u0936']),
  (['\x27'], ['\u0936', '\u094d']),
  (['\x22', 'k'], ['\u0937']),
  (['\x22'], ['\u0937', '\u094d']),
  (['l'], ['\u0938']),
  (['L', 'k'], ['\u0938']),
  (['L'], ['\u0938', '\u094d']),
  (['g'], ['\u0939']),
  (['\u00c8'], ['\u0940', '\u0902']),
  (['s', 'a', 'z'], ['\u094d', '\u0930', '\u0947', '\u0902']),
  (['z'], ['\u094d', '\u0930']),
  (['\u00dc'], ['\u0936', '\u094d']),
  (['\u201a'], ['\u0949']),
  (['k', 'a', 's'], ['\u094b', '\u0902']),
  (['k', 's'], ['\u094b']),
  (['k', 'S'], ['\u094c']),
  (['\u00a1', 'k'], ['\u093e', '\u0901']),
  (['a', 'k'], ['k', '\u0902']),
  (['k'], ['\u093e']),
  (['a', 'h'], ['\u0940', '\u0902']),
  (['h'], ['\u0940']),
  (['a', 'q'], ['\u0941', '\u0902']),
  (['q'], ['\u0941']),
  (['a', 'w'], ['\u0942', '\u0902']),
  (['\u00a1', 'w'], ['\u0942', '\u0901']),
  (['w'], ['\u0942']),
  (['\x60'], ['\u0943']),
  (['\u0300'], ['\u0943']),
  (['a', 's'], ['\u0947', '\u0902']),
  (['\u00b1', 's'], ['s', '\u00b1']),
  (['s'], ['\u0947']),
  (['a', 'S'], ['\u0948', '\u0902']),
  (['S'], ['\u0948']),
  (['a', '\u00aa'], ['\u094d', '\u0930', '\u0902']),
  (['\u00aa'], ['\u094d', '\u0930']),
  (['f', 'a'], ['\u0902', 'f']),
  (['a'], ['\u0902']),
  (['\u00a1'], ['\u0901']),
  (['%'], [':']),
  (['W'], ['\u0945']),
  (['\u2022'], ['\u093d']),
  (['\u00b7'], ['\u093d']),
  (['\u2219'], ['\u093d']),
  (['~', 'j'], ['\u094d', '\u0930']),
  (['~'], ['\u094d']),
  (['\\'], ['?']),
  (['+'], ['\u093c']),
  (['^'], ['\u2018']),
  (['*'], ['\u2019']),
  (['\u00de'], ['\u201c']),
  (['\u00df'], ['\u201d']),
  (['('], [';']),
  (['\u00bc'], ['(']),
  (['\u00bd'], [')']),
  (['\u00bf'], ['{']),
  (['\u00c0'], ['}']),
  (['\u00be'], ['=']),
  (['A'], ['\u0964']),
  (['-'], ['.']),
  (['&'], ['-']),
  (['&'], ['\u00b5']),
  (['\u03bc'], ['-']),
  (['\u0152'], ['\u0970']),
  ([']'], [',']),
  (['~', '\x20'], ['\u094d', '\x20']),
  (['@'], ['/']),
  (['\u00ae'], ['\u0948', '\u0902'])
]

def unicode_unattached_vowel_signs : List Char := ['\u093e', '\u093f', '\u0940', '\u0941', '\u0942', '\u0943', '\u0947', '\u0948', '\u094b', '\u094c', '\u0902', '\u0903', '\u0901', '\u0945']

def krutidev_consonants : List (List Char) := [['d'], ['[', 'k'], ['x'], ['?', 'k'], ['\u00b3'], ['p'], ['N'], ['t'], ['>'], ['\u00a5'], ['V'], ['B'], ['M'], ['<'], ['.', 'k'], ['r'], ['F', 'k'], ['n'], ['/', 'k'], ['u'], ['i'], ['Q'], ['c'], ['H', 'k'], ['e'], [';'], ['j'], ['y'], ['G'], ['o'], ['\x27', 'k'], ['\x22', 'k'], ['l'], ['g']]

def krutidev_unattached_vowel_signs : List (List Char) := [['k'], ['f'], ['h'], ['q'], ['w'], ['\x60'], ['s'], ['S'], ['k', 's'], ['k', 'S'], ['a'], ['%'], ['\u00a1'], ['W']]

def reph_scan_set : List Char := ['\u0905', '\u0906', '\u0907', '\u0908', '\u0909', '\u090a', '\u090f', '\u0910', '\u0913', '\u0914', '\u093e', '\u093f', '\u0940', '\u0941', '\u0942', '\u0943', '\u0947', '\u0948', '\u094b', '\u094c', '\u0902', '\u0903', '\u0901', '\u0945']

/-- True when the single character `d` is one of the legacy consonant or
unattached-vowel-sign strings the dash fix checks against (Python
`kru_text[i+1] in krutidev_consonants + krutidev_unattached_vowel_signs`;
only the one-character entries can ever equal a single character). -/
def kruFollower (d : Char) : Bool :=
  (krutidev_consonants ++ krutidev_unattached_vowel_signs).contains [d]

/-- True for the ambiguous dashes U+2013 and U+2014 (regex `[—–]`). -/
def isDash (c : Char) : Bool := c = '–' || c = '—'

/-- The Glyph Normalizer's dash fix: each en/em dash that has a next
character, with that next character outside the legacy consonant and
vowel-sign classes, becomes `&`.  The Python loop rewrites position `i`
only after reading position `i + 1` of the still-unmodified suffix, and
every rewrite is one character for one character, so the loop is this
single left-to-right pass. -/
def dashFix : List Char → List Char
  | [] => []
  | [c] => [c]
  | c :: d :: rest =>
      (if isDash c && !kruFollower d then '&' else c) :: dashFix (d :: rest)

/-- Apply every rule of the table, in table order, as a whole-string
replacement (the Sequential Substitution Engine). -/
def applyMappings (s : List Char) : List Char :=
  k2u_mappings.foldl (fun acc pr => pyReplace pr.1 pr.2 acc) s

/-- The text captured by a trailing `(.?)` group: the next character
when it exists and is not a newline (regex `.` does not match a
newline), otherwise the empty string. -/
def grp1 : List Char → List Char
  | [] => []
  | d :: _ => if d = '\n' then [] else [d]

/-- Result of `re.search('f(.?)', s)`: `none` when no `f` occurs,
otherwise the captured group at the first `f` — the next character
when it exists and is not a newline (`.` does not match newlines),
else the empty string. -/
def searchF : List Char → Option (List Char)
  | [] => none
  | c :: rest => if c = 'f' then some (grp1 rest) else searchF rest

/-- Result of `re.search('fa(.?)', s)`: group at the first occurrence
of `fa`. -/
def searchFA : List Char → Option (List Char)
  | [] => none
  | [_] => none
  | c :: d :: rest2 =>
      if c = 'f' ∧ d = 'a' then some (grp1 rest2)
      else searchFA (d :: rest2)

/-- Result of `re.search('ि्(.?)', s)`: group at the first occurrence
of `ि` followed by `्`. -/
def searchIV : List Char → Option (List Char)
  | [] => none
  | [_] => none
  | c :: d :: rest2 =>
      if c = 'ि' ∧ d = '्' then some (grp1 rest2)
      else searchIV (d :: rest2)

/-- Result of `re.search('(.?)Z', s)`: at each position the greedy `.?`
first tries to consume one non-newline character followed by `Z`, then
falls back to the empty match directly on a `Z`. -/
def searchDotZ : List Char → Option (List Char)
  | [] => none
  | [c] => if c = 'Z' then some [] else none
  | c :: d :: rest =>
      if c ≠ '\n' ∧ d = 'Z' then some [c]
      else if c = 'Z' then some []
      else searchDotZ (d :: rest)

/-- One iteration of the pre-posed-vowel loop:
`s.replace('f' + char, char + 'ि')`. -/
def fStep (s char : List Char) : List Char :=
  pyReplace ('f' :: char) (char ++ ['ि']) s

/-- One iteration of the `fa` loop:
`s.replace('fa' + char, char + 'िं')`. -/
def faStep (s char : List Char) : List Char :=
  pyReplace ('f' :: 'a' :: char) (char ++ ['ि', 'ं']) s

/-- One iteration of the `ि्` reordering loop:
`s.replace('ि्' + char, '्' + char + 'ि')`. -/
def ivStep (s char : List Char) : List Char :=
  pyReplace ('ि' :: '्' :: char) ('्' :: (char ++ ['ि'])) s

/-- The Reph Resolver's backward scan: starting at index `i`, while the
character there is in `reph_scan_set`, step left and prepend each
character passed over to `char`; stop at the first non-member (the base
consonant) or at the start of the buffer.  At index 0 the Python loop
either exits at once (non-member) or decrements the index below zero
and breaks, so `char` comes back unchanged either way. -/
def backScan (s : List Char) : Nat → List Char → List Char
  | 0, char => char
  | j + 1, char =>
      match s.get? (j + 1) with
      | none => char
      | some c =>
          if c ∈ reph_scan_set then
            match s.get? j with
            | none => char
            | some c2 => backScan s j (c2 :: char)
          else char

/-- One iteration of the Reph Resolver: locate `char + 'Z'`, scan
backward from it across combining marks, and replace the extended
`char + 'Z'` by `र् + char`.  The `none` branch mirrors the code's
`if char + 'Z' in kru_text` guard; it is unreachable because the
regex match is itself an occurrence. -/
def rephStep (s char : List Char) : List Char :=
  match findSub (char ++ ['Z']) s with
  | none => s
  | some i =>
      let char2 := backScan s i char
      pyReplace (char2 ++ ['Z']) ('र' :: '्' :: char2) s

/-- Fuelled pre-posed-vowel loop (`while re.search('f(.?)', ...)`). -/
def fLoopF : Nat → List Char → List Char
  | 0, s => s
  | fuel + 1, s =>
      match searchF s with
      | none => s
      | some char => fLoopF fuel (fStep s char)

/-- The pre-posed-vowel loop; each iteration removes at least one `f`,
so `cnt 'f' s` iterations always reach the fixpoint. -/
def fLoop (s : List Char) : List Char := fLoopF (cnt 'f' s) s

/-- Fuelled `fa` loop (`while re.search('fa(.?)', ...)`). -/
def faLoopF : Nat → List Char → List Char
  | 0, s => s
  | fuel + 1, s =>
      match searchFA s with
      | none => s
      | some char => faLoopF fuel (faStep s char)

/-- The `fa` loop; each iteration removes at least one `f`. -/
def faLoop (s : List Char) : List Char := faLoopF (cnt 'f' s) s

/-- Number of pairs of an `ि` occurring somewhere before an `्`; the
termination measure of the `ि्` reordering loop. -/
def invM : List Char → Nat
  | [] => 0
  | c :: rest => (if c = 'ि' then cnt '्' rest else 0) + invM rest

/-- Fuelled `ि्` loop (`while re.search('ि्(.?)', ...)`). -/
def ivLoopF : Nat → List Char → List Char
  | 0, s => s
  | fuel + 1, s =>
      match searchIV s with
      | none => s
      | some char => ivLoopF fuel (ivStep s char)

/-- The `ि्` reordering loop; each iteration strictly lowers `invM`. -/
def ivLoop (s : List Char) : List Char := ivLoopF (invM s) s

/-- Fuelled Reph Resolver loop (`while re.search('(.?)Z', ...)`). -/
def rephLoopF : Nat → List Char → List Char
  | 0, s => s
  | fuel + 1, s =>
      match searchDotZ s with
      | none => s
      | some char => rephLoopF fuel (rephStep s char)

/-- The Reph Resolver; each iteration removes at least one `Z`. -/
def rephLoop (s : List Char) : List Char := rephLoopF (cnt 'Z' s) s

/-- One matra's slice of the Combining-Mark Cleanup pass: delete a
space before the matra, transpose a comma with the matra, delete a
virama before the matra. -/
def cleanupStep (t : List Char) (m : Char) : List Char :=
  pyReplace ['्', m] [m]
    (pyReplace [',', m] [m, ','] (pyReplace ['\x20', m] [m] t))

/-- The Combining-Mark Cleanup pass: the matra loop over
`unicode_unattached_vowel_signs`, then the four final fixes
`््र → ्र`, `्र् → र्`, `्् → ्` and `् ` → ` `. -/
def cleanup (s : List Char) : List Char :=
  pyReplace ['्', '\x20'] ['\x20']
    (pyReplace ['्', '्'] ['्']
      (pyReplace ['्', 'र', '्'] ['र', '्']
        (pyReplace ['्', '्', 'र'] ['्', 'र']
          (unicode_unattached_vowel_signs.foldl cleanupStep s))))

/-- Everything before the Reph Resolver: the three pre-processing space
removals, the dash fix, the whole rule table, the post-substitution
fixes and the three pre-posed-vowel loops, ending with `्Z → Z`. -/
def preSubst (s : List Char) : List Char :=
  let t := pyReplace ['\x20', 'ª'] ['ª'] s
  let t := pyReplace ['\x20', '~', 'j'] ['~', 'j'] t
  let t := pyReplace ['\x20', 'z'] ['z'] t
  let t := dashFix t
  let t := applyMappings t
  let t := pyReplace ['±'] ['Z', 'ं'] t
  let t := pyReplace ['Æ'] ['र', '्', 'f'] t
  let t := fLoop t
  let t := pyReplace ['Ç'] ['f', 'a'] t
  let t := pyReplace ['¯'] ['f', 'a'] t
  let t := pyReplace ['É'] ['र', '्', 'f', 'a'] t
  let t := faLoop t
  let t := pyReplace ['Ê'] ['ी', 'Z'] t
  let t := ivLoop t
  pyReplace ['्', 'Z'] ['Z'] t

/-- The full transcoder `krutidev_to_unicode`: empty input short-circuits
to the empty string, otherwise the five-stage pipeline runs and ends
with the Reph Resolver and the Combining-Mark Cleanup pass. -/
def krutidev_to_unicode (s : List Char) : List Char :=
  if s = [] then [] else cleanup (rephLoop (preSubst s))

/-- The patterns searched for by the Combining-Mark Cleanup pass, in
application order: space/comma/virama before each matra, then the four
final virama fixes. -/
def cleanupPatterns : List (List Char) :=
  unicode_unattached_vowel_signs.map (fun m => ['\x20', m]) ++
  unicode_unattached_vowel_signs.map (fun m => [',', m]) ++
  unicode_unattached_vowel_signs.map (fun m => ['्', m]) ++
  [['्', '्', 'र'], ['्', 'र', '्'], ['्', '्'], ['्', '\x20']]

/-!
Sanity checks: the replacement model and the spec's literal scenarios.
-/

example : pyReplace ['a', 'b'] ['x'] ['a', 'b', 'a', 'b', 'c'] = ['x', 'x', 'c'] := by decide

example : pyReplace ['a', 'a'] ['b'] ['a', 'a', 'a'] = ['b', 'a'] := by decide

example : krutidev_to_unicode ['v', 'k', 't'] = ['आ', 'ज'] := by decide

example : krutidev_to_unicode ['f', 'd'] = ['क', 'ि'] := by decide

/-!
Infrastructure lemmas about `begMatch`, `cnt`, `findSub` and `pyRep`.
-/

theorem begMatch_cons_iff {p c : Char} {ps cs : List Char} :
    begMatch (p :: ps) (c :: cs) = true ↔ p = c ∧ begMatch ps cs = true := by
  rw [begMatch]
  split
  · next h => simp [h]
  · next h => simp [h]

theorem begMatch_eq_append {pat s : List Char} (h : begMatch pat s = true) :
    s = pat ++ s.drop pat.length := by
  induction pat generalizing s with
  | nil => simp
  | cons p ps ih =>
      cases s with
      | nil => simp [begMatch] at h
      | cons c cs =>
          obtain ⟨hpc, hrest⟩ := begMatch_cons_iff.mp h
          subst hpc
          simpa using ih hrest

theorem begMatch_nil_right {pat : List Char} (h : begMatch pat [] = true) : pat = [] := by
  cases pat with
  | nil => rfl
  | cons p ps => simp [begMatch] at h

theorem cnt_cons (c d : Char) (rest : List Char) :
    cnt c (d :: rest) = (if d = c then 1 else 0) + cnt c rest := rfl

theorem cnt_append (c : Char) (a b : List Char) :
    cnt c (a ++ b) = cnt c a + cnt c b := by
  induction a with
  | nil => simp [cnt]
  | cons d a ih => simp [cnt, ih, Nat.add_assoc]

theorem cnt_drop_le (c : Char) (s : List Char) (n : Nat) :
    cnt c (s.drop n) ≤ cnt c s := by
  induction s generalizing n with
  | nil => simp
  | cons d rest ih =>
      cases n with
      | zero => simp
      | succ n =>
          rw [List.drop_succ_cons]
          exact le_trans (ih n) (Nat.le_add_left _ _)

theorem cnt_eq_zero {c : Char} {s : List Char} : cnt c s = 0 ↔ c ∉ s := by
  induction s with
  | nil => simp [cnt]
  | cons d rest ih =>
      by_cases hdc : d = c
      · subst hdc
        simp [cnt]
      · simp [cnt, hdc, ih, Ne.symm hdc]

theorem findSub_some_beg {pat s : List Char} {i : Nat} (h : findSub pat s = some i) :
    begMatch pat (s.drop i) = true := by
  induction s generalizing i with
  | nil =>
      rw [findSub] at h
      split at h
      · next hp =>
          rw [List.isEmpty_iff] at hp
          subst hp
          rfl
      · exact absurd h (by simp)
  | cons c rest ih =>
      rw [findSub] at h
      split at h
      · next hb =>
          obtain rfl : (0 : Nat) = i := by simpa using h
          simpa using hb
      · next hb =>
          obtain ⟨j, hj, rfl⟩ := Option.map_eq_some'.mp h
          simpa using ih hj

theorem findSub_some_of_beg {pat s : List Char} {i : Nat}
    (h : begMatch pat (s.drop i) = true) : ∃ j, findSub pat s = some j := by
  induction s generalizing i with
  | nil =>
      have : pat = [] := begMatch_nil_right (by simpa using h)
      subst this
      exact ⟨0, by simp [findSub]⟩
  | cons c rest ih =>
      by_cases hb : begMatch pat (c :: rest) = true
      · exact ⟨0, by simp [findSub, hb]⟩
      · cases i with
        | zero => exact absurd (by simpa using h) hb
        | succ i =>
            obtain ⟨j, hj⟩ := ih (i := i) (by simpa using h)
            exact ⟨j + 1, by simp [findSub, hb, hj]⟩

theorem findSub_single_none {a : Char} {s : List Char} (h : a ∉ s) :
    findSub [a] s = none := by
  induction s with
  | nil => simp [findSub]
  | cons c rest ih =>
      have hac : ¬ (a = c) := fun hac => h (hac ▸ List.mem_cons_self c rest)
      have hb : begMatch [a] (c :: rest) = false := by
        rw [begMatch, if_neg hac]
      rw [findSub, hb]
      simp [ih (fun hm => h (List.mem_cons_of_mem c hm))]

theorem pyRep_id_none (pat rep : List Char) :
    ∀ fuel s, findSub pat s = none → pyRep pat rep fuel s = s := by
  intro fuel
  induction fuel with
  | zero => intro s _; rfl
  | succ fuel ih =>
      intro s h
      cases s with
      | nil => rfl
      | cons c rest =>
          rw [findSub] at h
          split at h
          · exact absurd h (by simp)
          · next hb =>
              rw [pyRep, if_neg (by simp [hb]), ih rest (Option.map_eq_none'.mp h)]

theorem pyReplace_id {pat rep s : List Char} (h : findSub pat s = none) :
    pyReplace pat rep s = s := pyRep_id_none pat rep s.length s h

theorem pyRep_split {pat : List Char} {x : Char} {rest : List Char}
    (hb : begMatch pat (x :: rest) = true) (hne : pat.isEmpty = false) :
    x :: rest = pat ++ List.drop (pat.length - 1) rest := by
  have hsp := begMatch_eq_append hb
  cases pat with
  | nil => simp at hne
  | cons p ps => simpa [List.drop_succ_cons] using hsp

theorem cnt_pyRep_le (c : Char) (pat rep : List Char) (hle : cnt c rep ≤ cnt c pat) :
    ∀ fuel s, cnt c (pyRep pat rep fuel s) ≤ cnt c s := by
  intro fuel
  induction fuel with
  | zero => intro s; simp [pyRep]
  | succ fuel ih =>
      intro s
      cases s with
      | nil => simp [pyRep]
      | cons x rest =>
          rw [pyRep]
          split
          · next hcond =>
              obtain ⟨hb, hne⟩ := Bool.and_eq_true_iff.mp hcond
              have hsplit := pyRep_split hb (by simpa using hne)
              calc cnt c (rep ++ pyRep pat rep fuel (List.drop (pat.length - 1) rest))
                  = cnt c rep + cnt c (pyRep pat rep fuel (List.drop (pat.length - 1) rest)) :=
                    cnt_append c _ _
                _ ≤ cnt c rep + cnt c (List.drop (pat.length - 1) rest) :=
                    Nat.add_le_add_left (ih _) _
                _ ≤ cnt c pat + cnt c (List.drop (pat.length - 1) rest) :=
                    Nat.add_le_add_right hle _
                _ = cnt c (x :: rest) := by
                    conv_rhs => rw [hsplit]
                    rw [cnt_append]
          · rw [cnt_cons, cnt_cons]
            exact Nat.add_le_add_left (ih rest) _

theorem cnt_pyRep_eq (c : Char) (pat rep : List Char) (heq : cnt c rep = cnt c pat) :
    ∀ fuel s, cnt c (pyRep pat rep fuel s) = cnt c s := by
  intro fuel
  induction fuel with
  | zero => intro s; simp [pyRep]
  | succ fuel ih =>
      intro s
      cases s with
      | nil => simp [pyRep]
      | cons x rest =>
          rw [pyRep]
          split
          · next hcond =>
              obtain ⟨hb, hne⟩ := Bool.and_eq_true_iff.mp hcond
              have hsplit := pyRep_split hb (by simpa using hne)
              calc cnt c (rep ++ pyRep pat rep fuel (List.drop (pat.length - 1) rest))
                  = cnt c rep + cnt c (List.drop (pat.length - 1) rest) := by
                    rw [cnt_append, ih]
                _ = cnt c (x :: rest) := by
                    conv_rhs => rw [hsplit]
                    rw [cnt_append, heq]
          · rw [cnt_cons, cnt_cons, ih]

theorem cnt_pyRep_zero {c : Char} {pat rep : List Char} (hrep : cnt c rep = 0) :
    ∀ fuel s, cnt c s = 0 → cnt c (pyRep pat rep fuel s) = 0 := by
  intro fuel
  induction fuel with
  | zero => intro s h; simpa [pyRep] using h
  | succ fuel ih =>
      intro s h
      cases s with
      | nil => simpa [pyRep] using h
      | cons x rest =>
          rw [pyRep]
          split
          · next hcond =>
              obtain ⟨hb, hne⟩ := Bool.and_eq_true_iff.mp hcond
              have hsplit := pyRep_split hb (by simpa using hne)
              have hdrop : cnt c (List.drop (pat.length - 1) rest) = 0 := by
                have := h
                rw [hsplit, cnt_append] at this
                omega
              rw [cnt_append, hrep, ih _ hdrop]
          · rw [cnt_cons] at h ⊢
            rw [ih rest (by omega)]
            omega

theorem cnt_pyRep_lt {c : Char} {pat rep : List Char} (hlt : cnt c rep < cnt c pat) :
    ∀ fuel s i, s.length ≤ fuel → begMatch pat (List.drop i s) = true →
      cnt c (pyRep pat rep fuel s) < cnt c s := by
  have hpatne : pat.isEmpty = false := by
    cases pat with
    | nil => simp [cnt] at hlt
    | cons p ps => rfl
  intro fuel
  induction fuel with
  | zero =>
      intro s i hlen hocc
      have hs : s = [] := List.eq_nil_of_length_eq_zero (Nat.le_zero.mp hlen)
      subst hs
      have : pat = [] := begMatch_nil_right (by simpa using hocc)
      rw [this] at hpatne
      simp at hpatne
  | succ fuel ih =>
      intro s i hlen hocc
      cases s with
      | nil =>
          have : pat = [] := begMatch_nil_right (by simpa using hocc)
          rw [this] at hpatne
          simp at hpatne
      | cons x rest =>
          rw [pyRep]
          split
          · next hcond =>
              obtain ⟨hb, hne⟩ := Bool.and_eq_true_iff.mp hcond
              have hsplit := pyRep_split hb (by simpa using hne)
              calc cnt c (rep ++ pyRep pat rep fuel (List.drop (pat.length - 1) rest))
                  = cnt c rep + cnt c (pyRep pat rep fuel (List.drop (pat.length - 1) rest)) :=
                    cnt_append c _ _
                _ ≤ cnt c rep + cnt c (List.drop (pat.length - 1) rest) :=
                    Nat.add_le_add_left (cnt_pyRep_le c pat rep (Nat.le_of_lt hlt) _ _) _
                _ < cnt c pat + cnt c (List.drop (pat.length - 1) rest) :=
                    Nat.add_lt_add_right hlt _
                _ = cnt c (x :: rest) := by
                    conv_rhs => rw [hsplit]
                    rw [cnt_append]
          · next hcond =>
              have hbfalse : begMatch pat (x :: rest) = false := by
                cases hbb : begMatch pat (x :: rest) with
                | false => rfl
                | true => exact absurd (by rw [hbb, hpatne]; rfl) hcond
              cases i with
              | zero =>
                  rw [List.drop_zero] at hocc
                  rw [hocc] at hbfalse
                  simp at hbfalse
              | succ i =>
                  rw [List.drop_succ_cons] at hocc
                  rw [cnt_cons, cnt_cons]
                  exact Nat.add_lt_add_left (ih rest i (by simp at hlen; omega) hocc) _

theorem pyRep_single_append (a : Char) (rep : List Char) :
    ∀ (xs ys : List Char) fuel, a ∉ xs → (xs ++ ys).length ≤ fuel →
      pyRep [a] rep fuel (xs ++ ys) = xs ++ pyRep [a] rep (fuel - xs.length) ys := by
  intro xs
  induction xs with
  | nil => intro ys fuel _ _; simp
  | cons x xs ih =>
      intro ys fuel hmem hlen
      cases fuel with
      | zero => simp at hlen
      | succ fuel =>
          have hax : ¬ (a = x) := fun hax => hmem (hax ▸ List.mem_cons_self x xs)
          have hb : begMatch [a] (x :: (xs ++ ys)) = false := by
            rw [begMatch, if_neg hax]
          rw [List.cons_append, pyRep, if_neg (by simp [hb])]
          rw [ih ys fuel (fun hm => hmem (List.mem_cons_of_mem x hm)) (by simp at hlen ⊢; omega)]
          simp [List.length_cons, Nat.succ_sub_succ]


theorem drop_cons_of_get {s : List Char} {j : Nat} {c : Char} (h : s.get? j = some c) :
    List.drop j s = c :: List.drop (j + 1) s := by
  induction s generalizing j with
  | nil => simp at h
  | cons x rest ih =>
      cases j with
      | zero =>
          obtain rfl : x = c := by simpa using h
          simp
      | succ j =>
          rw [List.drop_succ_cons, ih (by simpa using h)]
          simp

theorem begMatch_grp1 (m : Char) (rest : List Char) :
    begMatch (m :: grp1 rest) (m :: rest) = true := by
  apply begMatch_cons_iff.mpr
  refine ⟨rfl, ?_⟩
  cases rest with
  | nil => rfl
  | cons d rest2 =>
      by_cases hd : d = '\n'
      · rw [grp1, if_pos hd]
        rfl
      · rw [grp1, if_neg hd]
        exact begMatch_cons_iff.mpr ⟨rfl, rfl⟩

theorem searchF_some_occ {s char : List Char} (h : searchF s = some char) :
    ∃ i, begMatch ('f' :: char) (List.drop i s) = true := by
  induction s with
  | nil => simp [searchF] at h
  | cons c rest ih =>
      rw [searchF] at h
      split at h
      · next hc =>
          subst hc
          obtain rfl : grp1 rest = char := by simpa using h
          exact ⟨0, begMatch_grp1 'f' rest⟩
      · obtain ⟨i, hi⟩ := ih h
        exact ⟨i + 1, by simpa using hi⟩

theorem searchF_none_of_cnt {s : List Char} (h : cnt 'f' s = 0) : searchF s = none := by
  induction s with
  | nil => rfl
  | cons c rest ih =>
      rw [cnt_cons] at h
      have hc : ¬ (c = 'f') := by
        intro hc
        rw [if_pos hc] at h
        omega
      rw [searchF, if_neg hc]
      exact ih (by omega)

theorem begMatch_two_grp1 (m1 m2 : Char) (rest : List Char) :
    begMatch (m1 :: m2 :: grp1 rest) (m1 :: m2 :: rest) = true := by
  exact begMatch_cons_iff.mpr ⟨rfl, begMatch_grp1 m2 rest⟩

theorem searchFA_some_occ {s char : List Char} (h : searchFA s = some char) :
    ∃ i, begMatch ('f' :: 'a' :: char) (List.drop i s) = true := by
  induction s with
  | nil => simp [searchFA] at h
  | cons c tail ih =>
      cases tail with
      | nil => simp [searchFA] at h
      | cons d rest2 =>
          rw [searchFA] at h
          split at h
          · next hcd =>
              obtain ⟨rfl, rfl⟩ := hcd
              obtain rfl : grp1 rest2 = char := by simpa using h
              exact ⟨0, begMatch_two_grp1 'f' 'a' rest2⟩
          · obtain ⟨i, hi⟩ := ih h
            exact ⟨i + 1, by simpa using hi⟩

theorem searchFA_none_of_cnt {s : List Char} (h : cnt 'f' s = 0) : searchFA s = none := by
  induction s with
  | nil => rfl
  | cons c tail ih =>
      cases tail with
      | nil => rfl
      | cons d rest2 =>
          rw [cnt_cons] at h
          have hc : ¬ (c = 'f') := by
            intro hc
            rw [if_pos hc] at h
            omega
          rw [searchFA, if_neg (by intro hcd; exact hc hcd.1)]
          exact ih (by omega)

theorem searchIV_some_occ {s char : List Char} (h : searchIV s = some char) :
    ∃ i, begMatch ('ि' :: '्' :: char) (List.drop i s) = true := by
  induction s with
  | nil => simp [searchIV] at h
  | cons c tail ih =>
      cases tail with
      | nil => simp [searchIV] at h
      | cons d rest2 =>
          rw [searchIV] at h
          split at h
          · next hcd =>
              obtain ⟨rfl, rfl⟩ := hcd
              obtain rfl : grp1 rest2 = char := by simpa using h
              exact ⟨0, begMatch_two_grp1 'ि' '्' rest2⟩
          · obtain ⟨i, hi⟩ := ih h
            exact ⟨i + 1, by simpa using hi⟩

theorem searchDotZ_some_occ {s char : List Char} (h : searchDotZ s = some char) :
    ∃ i, begMatch (char ++ ['Z']) (List.drop i s) = true := by
  induction s with
  | nil => simp [searchDotZ] at h
  | cons c tail ih =>
      cases tail with
      | nil =>
          rw [searchDotZ] at h
          split at h
          · next hc =>
              subst hc
              obtain rfl : ([] : List Char) = char := by simpa using h
              exact ⟨0, begMatch_cons_iff.mpr ⟨rfl, rfl⟩⟩
          · exact absurd h (by simp)
      | cons d rest =>
          rw [searchDotZ] at h
          split at h
          · next hcd =>
              obtain ⟨-, rfl⟩ := hcd
              obtain rfl : [c] = char := by simpa using h
              exact ⟨0, begMatch_cons_iff.mpr ⟨rfl, begMatch_cons_iff.mpr ⟨rfl, rfl⟩⟩⟩
          · split at h
            · next hc =>
                subst hc
                obtain rfl : ([] : List Char) = char := by simpa using h
                exact ⟨0, begMatch_cons_iff.mpr ⟨rfl, rfl⟩⟩
            · obtain ⟨i, hi⟩ := ih h
              exact ⟨i + 1, by simpa using hi⟩

theorem searchDotZ_none_iff {s : List Char} : searchDotZ s = none ↔ cnt 'Z' s = 0 := by
  induction s with
  | nil => simp [searchDotZ, cnt]
  | cons c tail ih =>
      cases tail with
      | nil =>
          rw [searchDotZ]
          by_cases hc : c = 'Z'
          · rw [if_pos hc, cnt_cons, if_pos hc]
            simp
          · rw [if_neg hc, cnt_cons, if_neg hc]
            simp [cnt]
      | cons d rest =>
          rw [searchDotZ]
          by_cases h1 : c ≠ '\n' ∧ d = 'Z'
          · rw [if_pos h1]
            constructor
            · intro hf
              exact absurd hf (by simp)
            · intro hcnt
              have hmem : 'Z' ∈ c :: d :: rest := by
                rw [← h1.2]
                exact List.mem_cons_of_mem c (List.mem_cons_self d rest)
              exact ((cnt_eq_zero.mp hcnt) hmem).elim
          · rw [if_neg h1]
            by_cases h2 : c = 'Z'
            · rw [if_pos h2]
              constructor
              · intro hf
                exact absurd hf (by simp)
              · intro hcnt
                have hmem : 'Z' ∈ c :: d :: rest := by
                  rw [← h2]
                  exact List.mem_cons_self c (d :: rest)
                exact ((cnt_eq_zero.mp hcnt) hmem).elim
            · rw [if_neg h2, ih]
              simp only [cnt_cons, if_neg h2]
              omega

theorem backScan_succ_none {s : List Char} {j : Nat} {char : List Char}
    (hg : s.get? (j + 1) = none) : backScan s (j + 1) char = char := by
  rw [backScan, hg]

theorem backScan_succ_nomem {s : List Char} {j : Nat} {char : List Char} {c : Char}
    (hg : s.get? (j + 1) = some c) (hmem : c ∉ reph_scan_set) :
    backScan s (j + 1) char = char := by
  rw [backScan, hg]
  simp only [if_neg hmem]

theorem backScan_succ_mem_none {s : List Char} {j : Nat} {char : List Char} {c : Char}
    (hg : s.get? (j + 1) = some c) (hmem : c ∈ reph_scan_set) (hg2 : s.get? j = none) :
    backScan s (j + 1) char = char := by
  rw [backScan, hg]
  simp only [if_pos hmem]
  rw [hg2]

theorem backScan_succ_mem {s : List Char} {j : Nat} {char : List Char} {c c2 : Char}
    (hg : s.get? (j + 1) = some c) (hmem : c ∈ reph_scan_set) (hg2 : s.get? j = some c2) :
    backScan s (j + 1) char = backScan s j (c2 :: char) := by
  rw [backScan, hg]
  simp only [if_pos hmem]
  rw [hg2]

theorem backScan_beg {s : List Char} :
    ∀ (i : Nat) (char : List Char),
      begMatch (char ++ ['Z']) (List.drop i s) = true →
      ∃ j, begMatch ((backScan s i char) ++ ['Z']) (List.drop j s) = true := by
  intro i
  induction i with
  | zero =>
      intro char h
      exact ⟨0, h⟩
  | succ j ih =>
      intro char h
      cases hg : s.get? (j + 1) with
      | none => exact ⟨j + 1, by rwa [backScan_succ_none hg]⟩
      | some c =>
          by_cases hmem : c ∈ reph_scan_set
          · cases hg2 : s.get? j with
            | none => exact ⟨j + 1, by rwa [backScan_succ_mem_none hg hmem hg2]⟩
            | some c2 =>
                rw [backScan_succ_mem hg hmem hg2]
                apply ih (c2 :: char)
                rw [drop_cons_of_get hg2, List.cons_append]
                exact begMatch_cons_iff.mpr ⟨rfl, h⟩
          · exact ⟨j + 1, by rwa [backScan_succ_nomem hg hmem]⟩

theorem cnt_nil (c : Char) : cnt c [] = 0 := rfl

theorem fStep_dec {s char : List Char} (h : searchF s = some char) :
    cnt 'f' (fStep s char) < cnt 'f' s := by
  obtain ⟨i, hocc⟩ := searchF_some_occ h
  have hlt : cnt 'f' (char ++ ['ि']) < cnt 'f' ('f' :: char) := by
    simp only [cnt_append, cnt_cons, cnt_nil]
    simp
  exact cnt_pyRep_lt hlt s.length s i le_rfl hocc

theorem faStep_dec {s char : List Char} (h : searchFA s = some char) :
    cnt 'f' (faStep s char) < cnt 'f' s := by
  obtain ⟨i, hocc⟩ := searchFA_some_occ h
  have hlt : cnt 'f' (char ++ ['ि', 'ं']) < cnt 'f' ('f' :: 'a' :: char) := by
    simp only [cnt_append, cnt_cons, cnt_nil]
    simp
  exact cnt_pyRep_lt hlt s.length s i le_rfl hocc

theorem rephStep_dec {s char : List Char} (h : searchDotZ s = some char) :
    cnt 'Z' (rephStep s char) < cnt 'Z' s := by
  obtain ⟨i, hocc⟩ := searchDotZ_some_occ h
  obtain ⟨j, hfind⟩ := findSub_some_of_beg hocc
  obtain ⟨k, hocc2⟩ := backScan_beg j char (findSub_some_beg hfind)
  have hlt : cnt 'Z' ('र' :: '्' :: backScan s j char) <
      cnt 'Z' ((backScan s j char) ++ ['Z']) := by
    simp only [cnt_append, cnt_cons]
    simp
  simp only [rephStep, hfind]
  exact cnt_pyRep_lt hlt s.length s k le_rfl hocc2

theorem fLoopF_none : ∀ fuel s, cnt 'f' s ≤ fuel → searchF (fLoopF fuel s) = none := by
  intro fuel
  induction fuel with
  | zero =>
      intro s h
      exact searchF_none_of_cnt (Nat.le_zero.mp h)
  | succ fuel ih =>
      intro s h
      rw [fLoopF]
      cases hs : searchF s with
      | none => exact hs
      | some char =>
          exact ih _ (by have := fStep_dec hs; omega)

theorem faLoopF_none : ∀ fuel s, cnt 'f' s ≤ fuel → searchFA (faLoopF fuel s) = none := by
  intro fuel
  induction fuel with
  | zero =>
      intro s h
      exact searchFA_none_of_cnt (Nat.le_zero.mp h)
  | succ fuel ih =>
      intro s h
      rw [faLoopF]
      cases hs : searchFA s with
      | none => exact hs
      | some char =>
          exact ih _ (by have := faStep_dec hs; omega)

theorem rephLoopF_none : ∀ fuel s, cnt 'Z' s ≤ fuel → searchDotZ (rephLoopF fuel s) = none := by
  intro fuel
  induction fuel with
  | zero =>
      intro s h
      exact searchDotZ_none_iff.mpr (Nat.le_zero.mp h)
  | succ fuel ih =>
      intro s h
      rw [rephLoopF]
      cases hs : searchDotZ s with
      | none => exact hs
      | some char =>
          exact ih _ (by have := rephStep_dec hs; omega)

theorem rephLoop_cnt (s : List Char) : cnt 'Z' (rephLoop s) = 0 :=
  searchDotZ_none_iff.mp (rephLoopF_none (cnt 'Z' s) s le_rfl)

theorem invM_cons (c : Char) (rest : List Char) :
    invM (c :: rest) = (if c = 'ि' then cnt '्' rest else 0) + invM rest := rfl

theorem invM_nil : invM [] = 0 := rfl

theorem invM_append (a b : List Char) :
    invM (a ++ b) = invM a + invM b + cnt 'ि' a * cnt '्' b := by
  induction a with
  | nil => simp [invM, cnt]
  | cons c a ih =>
      simp only [List.cons_append, invM_cons, cnt_cons, cnt_append, ih]
      by_cases hc : c = 'ि'
      · simp only [if_pos hc]
        ring
      · simp only [if_neg hc]
        ring

theorem invM_drop_le (s : List Char) (n : Nat) : invM (List.drop n s) ≤ invM s := by
  induction s generalizing n with
  | nil => simp [invM]
  | cons c rest ih =>
      cases n with
      | zero => simp
      | succ n =>
          rw [List.drop_succ_cons]
          refine le_trans (ih n) ?_
          rw [invM_cons]
          exact Nat.le_add_left _ _

theorem iv_cnt_i (char : List Char) :
    cnt 'ि' ('्' :: (char ++ ['ि'])) = cnt 'ि' ('ि' :: '्' :: char) := by
  simp only [cnt_cons, cnt_append, cnt_nil]
  simp
  omega

theorem iv_cnt_h (char : List Char) :
    cnt '्' ('्' :: (char ++ ['ि'])) = cnt '्' ('ि' :: '्' :: char) := by
  simp only [cnt_cons, cnt_append, cnt_nil]
  simp

theorem iv_invM (char : List Char) :
    invM ('्' :: (char ++ ['ि'])) + 1 ≤ invM ('ि' :: '्' :: char) := by
  simp only [invM_cons, invM_append, invM_nil, cnt_cons, cnt_append, cnt_nil]
  simp
  omega

theorem invM_pyRep_le (char : List Char) :
    ∀ fuel s,
      invM (pyRep ('ि' :: '्' :: char) ('्' :: (char ++ ['ि'])) fuel s) ≤ invM s := by
  intro fuel
  induction fuel with
  | zero => intro s; simp [pyRep]
  | succ fuel ih =>
      intro s
      cases s with
      | nil => simp [pyRep]
      | cons x rest =>
          rw [pyRep]
          split
          · next hcond =>
              obtain ⟨hb, hne⟩ := Bool.and_eq_true_iff.mp hcond
              have hsplit := pyRep_split hb (by simpa using hne)
              rw [invM_append]
              rw [cnt_pyRep_eq _ _ _ (iv_cnt_h char) fuel _, iv_cnt_i char]
              conv_rhs => rw [hsplit]
              rw [invM_append]
              have h1 := ih (List.drop (('ि' :: '्' :: char).length - 1) rest)
              have h4 := iv_invM char
              omega
          · rw [invM_cons, invM_cons]
            have h1 := ih rest
            have h2 : cnt '्' (pyRep ('ि' :: '्' :: char) ('्' :: (char ++ ['ि'])) fuel rest) =
                cnt '्' rest := cnt_pyRep_eq _ _ _ (iv_cnt_h char) fuel rest
            rw [h2]
            by_cases hx : x = 'ि'
            · simp only [if_pos hx]
              omega
            · simp only [if_neg hx]
              omega

theorem invM_pyRep_lt (char : List Char) :
    ∀ fuel s i, s.length ≤ fuel → begMatch ('ि' :: '्' :: char) (List.drop i s) = true →
      invM (pyRep ('ि' :: '्' :: char) ('्' :: (char ++ ['ि'])) fuel s) < invM s := by
  intro fuel
  induction fuel with
  | zero =>
      intro s i hlen hocc
      have hs : s = [] := List.eq_nil_of_length_eq_zero (Nat.le_zero.mp hlen)
      subst hs
      have := begMatch_nil_right (by simpa using hocc)
      simp at this
  | succ fuel ih =>
      intro s i hlen hocc
      cases s with
      | nil =>
          have := begMatch_nil_right (by simpa using hocc)
          simp at this
      | cons x rest =>
          rw [pyRep]
          split
          · next hcond =>
              obtain ⟨hb, hne⟩ := Bool.and_eq_true_iff.mp hcond
              have hsplit := pyRep_split hb (by simpa using hne)
              rw [invM_append]
              rw [cnt_pyRep_eq _ _ _ (iv_cnt_h char) fuel _, iv_cnt_i char]
              conv_rhs => rw [hsplit]
              rw [invM_append]
              have h1 := invM_pyRep_le char fuel (List.drop (('ि' :: '्' :: char).length - 1) rest)
              have h4 := iv_invM char
              omega
          · next hcond =>
              have hbfalse : begMatch ('ि' :: '्' :: char) (x :: rest) = false := by
                cases hbb : begMatch ('ि' :: '्' :: char) (x :: rest) with
                | false => rfl
                | true => exact absurd (by rw [hbb]; rfl) hcond
              cases i with
              | zero =>
                  rw [List.drop_zero] at hocc
                  rw [hocc] at hbfalse
                  simp at hbfalse
              | succ i =>
                  rw [List.drop_succ_cons] at hocc
                  rw [invM_cons, invM_cons]
                  have h1 := ih rest i (by simp at hlen; omega) hocc
                  have h2 : cnt '्' (pyRep ('ि' :: '्' :: char) ('्' :: (char ++ ['ि'])) fuel rest) =
                      cnt '्' rest := cnt_pyRep_eq _ _ _ (iv_cnt_h char) fuel rest
                  rw [h2]
                  by_cases hx : x = 'ि'
                  · simp only [if_pos hx]
                    omega
                  · simp only [if_neg hx]
                    omega

theorem ivStep_dec {s char : List Char} (h : searchIV s = some char) :
    invM (ivStep s char) < invM s := by
  obtain ⟨i, hocc⟩ := searchIV_some_occ h
  exact invM_pyRep_lt char s.length s i le_rfl hocc

theorem searchIV_none_of_invM {s : List Char} (h : invM s = 0) : searchIV s = none := by
  cases hs : searchIV s with
  | none => rfl
  | some char =>
      obtain ⟨i, hocc⟩ := searchIV_some_occ hs
      have h1 : invM (List.drop i s) ≤ invM s := invM_drop_le s i
      have h2 : 1 ≤ invM (List.drop i s) := by
        have hsplit := begMatch_eq_append hocc
        rw [hsplit, invM_append, invM_cons, invM_cons, cnt_cons]
        simp
        omega
      omega

theorem ivLoopF_none : ∀ fuel s, invM s ≤ fuel → searchIV (ivLoopF fuel s) = none := by
  intro fuel
  induction fuel with
  | zero =>
      intro s h
      exact searchIV_none_of_invM (Nat.le_zero.mp h)
  | succ fuel ih =>
      intro s h
      rw [ivLoopF]
      cases hs : searchIV s with
      | none => exact hs
      | some char =>
          exact ih _ (by have := ivStep_dec hs; omega)

theorem cnt_pyReplace_zero {c : Char} {pat rep : List Char} (hrep : cnt c rep = 0)
    {s : List Char} (h : cnt c s = 0) : cnt c (pyReplace pat rep s) = 0 :=
  cnt_pyRep_zero hrep s.length s h

theorem cleanupStep_cnt_zero {t : List Char} {m : Char} (hm : ¬ (m = 'Z'))
    (h : cnt 'Z' t = 0) : cnt 'Z' (cleanupStep t m) = 0 := by
  rw [cleanupStep]
  exact cnt_pyReplace_zero (by simp [cnt, hm])
    (cnt_pyReplace_zero (by simp [cnt, hm]) (cnt_pyReplace_zero (by simp [cnt, hm]) h))

theorem foldl_cleanupStep_cnt_zero :
    ∀ (l : List Char) (t : List Char), (∀ m ∈ l, ¬ (m = 'Z')) → cnt 'Z' t = 0 →
      cnt 'Z' (List.foldl cleanupStep t l) = 0 := by
  intro l
  induction l with
  | nil => intro t _ h; exact h
  | cons m l ih =>
      intro t hml h
      rw [List.foldl_cons]
      exact ih _ (fun m' hm' => hml m' (List.mem_cons_of_mem m hm'))
        (cleanupStep_cnt_zero (hml m (List.mem_cons_self m l)) h)

theorem cleanup_cnt_zero {t : List Char} (h : cnt 'Z' t = 0) :
    cnt 'Z' (cleanup t) = 0 := by
  rw [cleanup]
  exact cnt_pyReplace_zero (by decide)
    (cnt_pyReplace_zero (by decide)
      (cnt_pyReplace_zero (by decide)
        (cnt_pyReplace_zero (by decide)
          (foldl_cleanupStep_cnt_zero _ t (by decide) h))))

theorem cleanupStep_fixed {t : List Char} {m : Char}
    (h1 : findSub ['\x20', m] t = none) (h2 : findSub [',', m] t = none)
    (h3 : findSub ['्', m] t = none) : cleanupStep t m = t := by
  rw [cleanupStep, pyReplace_id h1, pyReplace_id h2, pyReplace_id h3]

theorem foldl_cleanupStep_fixed :
    ∀ (l : List Char) (t : List Char),
      (∀ m ∈ l, findSub ['\x20', m] t = none ∧ findSub [',', m] t = none ∧
        findSub ['्', m] t = none) →
      List.foldl cleanupStep t l = t := by
  intro l
  induction l with
  | nil => intro t _; rfl
  | cons m l ih =>
      intro t h
      obtain ⟨h1, h2, h3⟩ := h m (List.mem_cons_self m l)
      rw [List.foldl_cons, cleanupStep_fixed h1 h2 h3]
      exact ih t (fun m' hm' => h m' (List.mem_cons_of_mem m hm'))

theorem cleanup_fixed {t : List Char}
    (h : ∀ p ∈ cleanupPatterns, findSub p t = none) : cleanup t = t := by
  have hfold : List.foldl cleanupStep t unicode_unattached_vowel_signs = t := by
    apply foldl_cleanupStep_fixed
    intro m hm
    refine ⟨h _ ?_, h _ ?_, h _ ?_⟩
    · simp only [cleanupPatterns, List.mem_append, List.mem_map]
      exact Or.inl (Or.inl (Or.inl ⟨m, hm, rfl⟩))
    · simp only [cleanupPatterns, List.mem_append, List.mem_map]
      exact Or.inl (Or.inl (Or.inr ⟨m, hm, rfl⟩))
    · simp only [cleanupPatterns, List.mem_append, List.mem_map]
      exact Or.inl (Or.inr ⟨m, hm, rfl⟩)
  rw [cleanup, hfold, pyReplace_id (h ['्', '्', 'र'] (by decide)),
     pyReplace_id (h ['्', 'र', '्'] (by decide)), pyReplace_id (h ['्', '्'] (by decide)),
     pyReplace_id (h ['्', '\x20'] (by decide))]

theorem searchDotZ_Z_head {rest : List Char} (h : 'Z' ∉ rest) :
    searchDotZ ('Z' :: rest) = some [] := by
  cases rest with
  | nil => decide
  | cons d rest2 =>
      have hd : ¬ (d = 'Z') := fun hd => h (hd ▸ List.mem_cons_self d rest2)
      rw [searchDotZ, if_neg (fun hc => hd hc.2), if_pos rfl]

theorem pyReplace_Z_head {rest : List Char} (h : 'Z' ∉ rest) :
    pyReplace ['Z'] ['र', '्'] ('Z' :: rest) = 'र' :: '्' :: rest := by
  rw [pyReplace, List.length_cons, pyRep,
     if_pos (by simp [begMatch] : (begMatch ['Z'] ('Z' :: rest) && !List.isEmpty ['Z']) = true)]
  simp only [List.length_singleton, Nat.sub_self, List.drop_zero]
  rw [pyRep_id_none _ _ _ _ (findSub_single_none h)]
  rfl

theorem rephStep_Z_head {rest : List Char} (h : 'Z' ∉ rest) :
    rephStep ('Z' :: rest) [] = 'र' :: '्' :: rest := by
  have hfind : findSub ['Z'] ('Z' :: rest) = some 0 := by
    rw [findSub, if_pos (by simp [begMatch] : begMatch ['Z'] ('Z' :: rest) = true)]
  simp only [rephStep, hfind, backScan]
  exact pyReplace_Z_head h

theorem searchF_append_f : ∀ (rest : List Char), 'f' ∉ rest →
    searchF (rest ++ ['f']) = some [] := by
  intro rest
  induction rest with
  | nil => intro _; decide
  | cons c rest ih =>
      intro h
      have hc : ¬ (c = 'f') := fun hc => h (hc ▸ List.mem_cons_self c rest)
      rw [List.cons_append, searchF, if_neg hc]
      exact ih (fun hm => h (List.mem_cons_of_mem c hm))

theorem fStep_trailing {rest : List Char} (h : 'f' ∉ rest) :
    fStep (rest ++ ['f']) [] = rest ++ ['ि'] := by
  have h1 : pyRep ['f'] ['ि'] 1 ['f'] = ['ि'] := by decide
  have hlen : (rest ++ ['f']).length - rest.length = 1 := by simp
  rw [fStep, pyReplace]
  simp only [List.nil_append]
  rw [pyRep_single_append 'f' ['ि'] rest ['f'] ((rest ++ ['f']).length) h le_rfl, hlen, h1]

/-!
Claim theorems.
-/

/-- Claim C1, counterexample: the Combining-Mark Cleanup pass is not
idempotent on every buffer.  On the buffer `,ाा` the comma–matra
transposition moves the comma past only one matra per application, so
a second application changes the result again. -/
theorem cleanup_twice_differs :
    cleanup (cleanup [',', 'ा', 'ा']) ≠ cleanup [',', 'ा', 'ा'] := by decide

/-- Claim C1, amended: the Combining-Mark Cleanup pass is idempotent on
every buffer whose single-pass output contains none of the pass's
patterns any more; the second application is then the identity. -/
theorem cleanup_idempotent_of_patterns_absent (b : List Char)
    (h : ∀ p ∈ cleanupPatterns, findSub p (cleanup b) = none) :
    cleanup (cleanup b) = cleanup b := cleanup_fixed h

/-- Witness for the amended C1 theorem at the concrete buffer `क`. -/
theorem cleanup_idempotent_witness :
    (∀ p ∈ cleanupPatterns, findSub p (cleanup ['क']) = none) ∧
    cleanup (cleanup ['क']) = cleanup ['क'] :=
  ⟨by decide, cleanup_idempotent_of_patterns_absent ['क'] (by decide)⟩

/-- Claim C2, counterexample: a reph marker at position 0 is not
dropped — the Reph Resolver rewrites the lone `Z` into the reph form
`र` + virama, so a reph form is emitted for it. -/
theorem reph_at_start_emits_reph :
    rephLoop ['Z'] = ['र', '्'] ∧ 'र' ∈ rephLoop ['Z'] := by decide

/-- Claim C2, amended: when the reph marker `Z` occurs at position 0
(backward scan would find no base consonant), the Reph Resolver
tolerates it — processing does not fail — but instead of dropping the
reph it rewrites the marker in place to the reph form `र` + virama at
the start of the buffer. -/
theorem reph_marker_at_start_rewritten (rest : List Char) (h : 'Z' ∉ rest) :
    rephLoop ('Z' :: rest) = 'र' :: '्' :: rest := by
  have hcnt : cnt 'Z' ('Z' :: rest) = 1 := by
    rw [cnt_cons, if_pos rfl, cnt_eq_zero.mpr h]
  rw [rephLoop, hcnt]
  show rephLoopF (0 + 1) ('Z' :: rest) = _
  rw [rephLoopF]
  simp only [searchDotZ_Z_head h]
  rw [rephStep_Z_head h]
  rfl

/-- Witness for the amended C2 theorem at the concrete buffer `Zx`. -/
theorem reph_marker_at_start_witness :
    'Z' ∉ ['x'] ∧ rephLoop ['Z', 'x'] = ['र', '्', 'x'] :=
  ⟨by decide, reph_marker_at_start_rewritten ['x'] (by decide)⟩

/-- Claim C3, counterexample: a pre-posed vowel marker `f` that is the
last character of the buffer is not left unchanged — the resolver's
regex matches it with an empty group and rewrites it into the bare
vowel sign `ि`. -/
theorem trailing_f_rewritten :
    fLoop ['f'] = ['ि'] ∧ 'f' ∉ fLoop ['f'] := by decide

/-- Claim C3, amended: when the pre-posed vowel marker `f` is the last
character of the buffer (and occurs nowhere else), the resolver deletes
the marker and appends the vowel sign `ि` in its place rather than
leaving it as an unresolved artifact. -/
theorem trailing_f_becomes_vowel_sign (rest : List Char) (h : 'f' ∉ rest) :
    fLoop (rest ++ ['f']) = rest ++ ['ि'] := by
  have hcnt : cnt 'f' (rest ++ ['f']) = 1 := by
    rw [cnt_append, cnt_eq_zero.mpr h, cnt_cons, if_pos rfl, cnt_nil]
  rw [fLoop, hcnt]
  show fLoopF (0 + 1) (rest ++ ['f']) = _
  rw [fLoopF]
  simp only [searchF_append_f rest h]
  rw [fStep_trailing h]
  rfl

/-- Witness for the amended C3 theorem at the concrete buffer `xf`. -/
theorem trailing_f_witness :
    'f' ∉ ['x'] ∧ fLoop (['x'] ++ ['f']) = ['x'] ++ ['ि'] :=
  ⟨by decide, trailing_f_becomes_vowel_sign ['x'] (by decide)⟩

/-- Claim C4, counterexample: the rule for pattern `~` sits at index 204
of the table and the rule for pattern `~ ` at index 224, yet `~` is a
strict prefix of `~ ` — the longer pattern's rule comes later, not
earlier. -/
theorem rule_table_prefix_order_violation :
    (k2u_mappings.get? 204).map Prod.fst = some ['~'] ∧
    (k2u_mappings.get? 224).map Prod.fst = some ['~', '\x20'] ∧
    begMatch ['~'] ['~', '\x20'] = true ∧ ['~'] ≠ ['~', '\x20'] ∧ (204 : Nat) < 224 := by
  decide

/-- Claim C4, amended: whenever an earlier rule's pattern is a strict
prefix of a later rule's pattern, that pair is exactly `~` before
`~ ` — the single violation of the longer-pattern-first design rule in
the table (it makes the `~ ` rule unreachable). -/
theorem rule_table_prefix_order_except_tilde :
    List.Pairwise
      (fun a b => (begMatch a.1 b.1 = true ∧ a.1 ≠ b.1) →
        a.1 = ['~'] ∧ b.1 = ['~', '\x20'])
      k2u_mappings := by decide

/-- Claim C5, counterexample: the entries at indices 219 and 220 of the
table are distinct rules with the same match pattern `&`. -/
theorem rule_table_duplicate_ampersand :
    (k2u_mappings.get? 219).map Prod.fst = some ['&'] ∧
    (k2u_mappings.get? 220).map Prod.fst = some ['&'] ∧ (219 : Nat) ≠ 220 := by decide

/-- Claim C5, amended: `&` is the only pattern shared by two distinct
entries of the table; any two entries with equal patterns have pattern
`&` (the second `&` rule is unreachable). -/
theorem rule_table_patterns_distinct_except_ampersand :
    List.Pairwise (fun a b => a.1 = b.1 → a.1 = ['&']) k2u_mappings := by decide

/-- Claim C6, counterexample: an ambiguous dash that is the last
character of the input is not followed by a legacy consonant or
vowel-sign character, yet the Glyph Normalizer leaves it untouched
instead of reclassifying it to `&`. -/
theorem trailing_dash_not_reclassified :
    dashFix ['–'] = ['–'] ∧ dashFix ['–'] ≠ ['&'] := by decide

/-- Claim C6, amended: a dash (en or em) is reclassified to `&` exactly
when a following character exists and that character is outside the
legacy consonant and vowel-sign classes; every other character — in
particular a dash that is the last character of the input — passes
through unchanged, position by position. -/
theorem dash_reclassification_characterization (s : List Char) (i : Nat) :
    (dashFix s).get? i =
      (s.get? i).map (fun c =>
        if isDash c && ((s.get? (i + 1)).any fun d => !kruFollower d) then '&' else c) := by
  induction s generalizing i with
  | nil => simp [dashFix]
  | cons c tail ih =>
      cases tail with
      | nil =>
          cases i with
          | zero => simp [dashFix]
          | succ i => simp [dashFix]
      | cons d rest =>
          cases i with
          | zero => simp [dashFix]
          | succ i =>
              rw [dashFix]
              rw [List.get?_cons_succ, List.get?_cons_succ, ih]
              rfl

/-- Claim C7: the transcoder is total over strings — the embedding is a
total function (every index and search operation in the code is
guarded), and the empty string transcodes to the empty string. -/
theorem transcode_total_and_empty :
    krutidev_to_unicode [] = [] ∧
    ∀ s : List Char, ∃ t : List Char, krutidev_to_unicode s = t :=
  ⟨by decide, fun _ => ⟨_, rfl⟩⟩

/-- Claim C8: every iteration of the pre-posed-vowel loops (markers `f`
and `fa`) strictly decreases the count of `f` markers, every iteration
of the Reph Resolver strictly decreases the count of `Z` markers, and
each loop reaches the fixpoint where its search fails — the loops
terminate for every finite input. -/
theorem resolver_loops_terminate :
    (∀ s char, searchF s = some char → cnt 'f' (fStep s char) < cnt 'f' s) ∧
    (∀ s char, searchFA s = some char → cnt 'f' (faStep s char) < cnt 'f' s) ∧
    (∀ s char, searchDotZ s = some char → cnt 'Z' (rephStep s char) < cnt 'Z' s) ∧
    (∀ s, searchF (fLoop s) = none) ∧
    (∀ s, searchFA (faLoop s) = none) ∧
    (∀ s, searchDotZ (rephLoop s) = none) :=
  ⟨fun _ _ h => fStep_dec h, fun _ _ h => faStep_dec h, fun _ _ h => rephStep_dec h,
   fun s => fLoopF_none _ s le_rfl, fun s => faLoopF_none _ s le_rfl,
   fun s => rephLoopF_none _ s le_rfl⟩

/-- Witness for C8: the decrease hypotheses hold at the one-marker
buffers `f`, `fa` and `Z`. -/
theorem resolver_loops_witness :
    (searchF ['f'] = some [] ∧ cnt 'f' (fStep ['f'] []) < cnt 'f' ['f']) ∧
    (searchFA ['f', 'a'] = some [] ∧ cnt 'f' (faStep ['f', 'a'] []) < cnt 'f' ['f', 'a']) ∧
    (searchDotZ ['Z'] = some [] ∧ cnt 'Z' (rephStep ['Z'] []) < cnt 'Z' ['Z']) :=
  ⟨⟨by decide, resolver_loops_terminate.1 ['f'] [] (by decide)⟩,
   ⟨by decide, resolver_loops_terminate.2.1 ['f', 'a'] [] (by decide)⟩,
   ⟨by decide, resolver_loops_terminate.2.2.1 ['Z'] [] (by decide)⟩⟩

/-- Claim C9: the full transcoder maps the legacy input `Hkkjr` to the
Unicode output `भारत` — the two-character pattern `Hk` fires before its
single-character prefix `H`, then the `j`, `r` and vowel-sign `k`
substitutions apply. -/
theorem transcode_hkkjr :
    krutidev_to_unicode ['H', 'k', 'k', 'j', 'r'] = ['भ', 'ा', 'र', 'त'] := by decide

/-- Claim C10: the output of the full transcoder never contains the
reph marker `Z`: the Reph Resolver strictly decreases the `Z` count
until none remains, and the Combining-Mark Cleanup pass introduces
none. -/
theorem transcode_no_marker_Z : ∀ s : List Char, 'Z' ∉ krutidev_to_unicode s := by
  intro s
  rw [krutidev_to_unicode]
  split
  · simp
  · exact cnt_eq_zero.mp (cleanup_cnt_zero (rephLoop_cnt _))
